import Mathlib

/-!
Verification of the manifest normalizer of `mdot` (src/main.rs).

The normalizer converts a Lua-produced configuration tree into `Package`
records.  Lua values are modelled by `ConfigValue`; Lua strings are byte
sequences (`Bytes`), since the Rust code receives raw `mlua::String` bytes and
validates UTF-8 at each read (`lua_str_to_str` / `lua_value_to_str`).  A Rust
`String` is modelled as its (UTF-8 valid) byte sequence, so no decoding step is
needed: Rust string equality is byte equality.

Process aborts (`fatal!`, which logs and calls `std::process::exit(1)`) are
modelled as `Except.error` propagating to the top of the pass; warnings
(`warn!`) are collected in order in a `List Warn`.
-/

/-- Byte strings: the raw bytes of an `mlua::String` or of a Rust `String`. -/
abbrev Bytes := List Nat

/-- UTF-8 encoding of one scalar value, used to spell byte strings of ASCII
literals such as the field keys `"links"`, `"name"`, etc. -/
def charUtf8 (c : Char) : List Nat :=
  let n := c.toNat
  if n < 128 then [n]
  else if n < 2048 then [192 + n / 64, 128 + n % 64]
  else if n < 65536 then [224 + n / 4096, 128 + (n / 64) % 64, 128 + n % 64]
  else [240 + n / 262144, 128 + (n / 4096) % 64, 128 + (n / 64) % 64, 128 + n % 64]

/-- The byte sequence of a Lean string literal. -/
def S (s : String) : Bytes := (s.data.map charUtf8).flatten

/-- RFC 3629 UTF-8 validation automaton, as performed by Rust's
`str::from_utf8` inside `mlua::String::to_str`.  `need` counts pending
continuation bytes; `lo`/`hi` bound the next byte when `need > 0`. -/
def utf8Go : Nat → Nat → Nat → List Nat → Bool
  | 0, _, _, [] => true
  | _+1, _, _, [] => false
  | 0, _, _, b :: rest =>
    if b ≤ 127 then utf8Go 0 0 0 rest
    else if 194 ≤ b && b ≤ 223 then utf8Go 1 128 191 rest
    else if b = 224 then utf8Go 2 160 191 rest
    else if b = 237 then utf8Go 2 128 159 rest
    else if 225 ≤ b && b ≤ 239 then utf8Go 2 128 191 rest
    else if b = 240 then utf8Go 3 144 191 rest
    else if 241 ≤ b && b ≤ 243 then utf8Go 3 128 191 rest
    else if b = 244 then utf8Go 3 128 143 rest
    else false
  | need+1, lo, hi, b :: rest =>
    if lo ≤ b && b ≤ hi then utf8Go need 128 191 rest else false

/-- A byte sequence is valid UTF-8. -/
def utf8Valid (l : Bytes) : Bool := utf8Go 0 0 0 l

/-- The dynamic Lua value tree handed to the normalizer (`mlua::Value`,
restricted to the kinds the configuration produces).  A table is its ordered
pair list, as exposed by `Table::pairs` in declaration order. -/
inductive ConfigValue where
  | Nil : ConfigValue
  | Boolean : Bool → ConfigValue
  | Integer : Int → ConfigValue
  | Str : Bytes → ConfigValue
  | Table : List (ConfigValue × ConfigValue) → ConfigValue

abbrev LPair := ConfigValue × ConfigValue
abbrev LTable := List LPair

/-- A primitive table key, as used by the Rust code's `tbl.get(1)` and
`tbl.get("field")` calls. -/
inductive LKey where
  | int : Int → LKey
  | str : Bytes → LKey

/-- Whether a table pair's key equals the queried primitive key. -/
def keyMatches (k : LKey) (p : LPair) : Bool :=
  match k, p.1 with
  | .int i, .Integer j => decide (i = j)
  | .str a, .Str b => decide (a = b)
  | _, _ => false

/-- `tbl.get(k)`: the value stored at key `k`, `Nil` when absent. -/
def LTable.get (t : LTable) (k : LKey) : ConfigValue :=
  match t.find? (keyMatches k) with
  | some p => p.2
  | none => .Nil

/-- Lua sequence traversal (`Table::sequence_values`): values at integer keys
1, 2, ... up to the first absent index.  A table with `n` pairs can hold at
most `n` distinct integer keys, so fuel `n` is exact. -/
def seqValuesGo (t : LTable) (i : Int) : Nat → List ConfigValue
  | 0 => []
  | fuel+1 =>
    match t.get (.int i) with
    | .Nil => []
    | v => v :: seqValuesGo t (i+1) fuel

def seqValues (t : LTable) : List ConfigValue := seqValuesGo t 1 t.length

/-- The two error strings of `Package::extract_name`. -/
inductive NameErr where
  | bothProvided : NameErr
  | noName : NameErr

/-- One abort of the pass: each constructor is one `fatal!` call site, with the
values the message formats. -/
inductive Fatal where
  | invalidUtf8 : Fatal
  | expectedString : ConfigValue → Fatal
  | invalidTargetElement : ConfigValue → ConfigValue → Fatal
  | targetsExpectedStringOrTable : ConfigValue → Fatal
  | missingSource : Fatal
  | sourceType : ConfigValue → Fatal
  | missingTargets : Fatal
  | overwriteType : ConfigValue → Fatal
  | backupType : ConfigValue → Fatal
  | expectedLinkElement : ConfigValue → ConfigValue → Fatal
  | seqExpectedString : ConfigValue → Fatal
  | expectedStringOrTable : ConfigValue → Fatal
  | linksExpectedTable : ConfigValue → Fatal
  | nameErr : NameErr → Fatal
  | unsupportedPackageFormat : ConfigValue → ConfigValue → Fatal

/-- One `warn!` emission. -/
inductive Warn where
  | keyOverridesName : Bytes → Bytes → Warn
  | nameErrWarn : NameErr → Warn
  | keyIgnored : Bytes → Warn

/-- `fn lua_str_to_str`: UTF-8 validation of an `mlua::String`; invalid bytes
abort the pass. -/
def luaStrToStr (b : Bytes) : Except Fatal Bytes :=
  if utf8Valid b then .ok b else .error .invalidUtf8

/-- `fn lua_value_to_str`: requires a `String` value, then validates UTF-8. -/
def luaValueToStr (v : ConfigValue) : Except Fatal Bytes :=
  match v with
  | .Str b => luaStrToStr b
  | v => .error (.expectedString v)

/-- mlua's `FromLua` for Rust `String` (used by `tbl.get::<String>(..)` in
`has_name` / `extract_name`): a Lua string converts when its bytes are valid
UTF-8, an integer is coerced to its decimal text, anything else fails — and the
failure is swallowed by `.ok()` into `None`. -/
def coerceToString : ConfigValue → Option Bytes
  | .Str b => if utf8Valid b then some b else none
  | .Integer i => some (S (toString i))
  | _ => none

/-- `LinkObject`: validated link declaration (paths kept as byte strings). -/
structure LinkObject where
  source : Bytes
  targets : List Bytes
  overwrite : Bool
  backup : Bool

/-- `OSPackageName` of the Rust data model (never produced by the normalizer). -/
inductive OSPackageName where
  | AsPackage : Bool → OSPackageName
  | Name : Bytes → OSPackageName
  | Package : List (Bytes × Bytes) → OSPackageName

/-- `Enabled`: either a boolean or a deferred Lua predicate (`Hook`; the
function value itself is not modelled — the normalizer never constructs it). -/
inductive Enabled where
  | Enable : Bool → Enabled
  | Hook : Enabled

/-- `Package` record.  Fields in declaration order: name, package_name,
enabled, depends, links, excludes, templates. -/
inductive Package where
  | mk : Bytes → Option OSPackageName → Enabled → List Package →
      List LinkObject → List Bytes → List Bytes → Package

def Package.name : Package → Bytes
  | .mk n _ _ _ _ _ _ => n

def Package.package_name : Package → Option OSPackageName
  | .mk _ p _ _ _ _ _ => p

def Package.enabled : Package → Enabled
  | .mk _ _ e _ _ _ _ => e

def Package.depends : Package → List Package
  | .mk _ _ _ d _ _ _ => d

def Package.links : Package → List LinkObject
  | .mk _ _ _ _ l _ _ => l

def Package.excludes : Package → List Bytes
  | .mk _ _ _ _ _ e _ => e

def Package.templates : Package → List Bytes
  | .mk _ _ _ _ _ _ t => t

/-- `Package::new`: the given name, every other field `Default` (Rust's derived
default: `package_name = None`, `enabled = Enable(true)`, empty lists). -/
def Package.new (name : Bytes) : Package :=
  .mk name none (.Enable true) [] [] [] []

/-- `pkg.links = ls` assignment in the field walk. -/
def Package.withLinks : Package → List LinkObject → Package
  | .mk n p e d _ ex t, ls => .mk n p e d ls ex t

/-- `pkg.excludes = ex` assignment in the field walk. -/
def Package.withExcludes : Package → List Bytes → Package
  | .mk n p e d l _ t, ex => .mk n p e d l ex t

/-- `pkg.templates = ts` assignment in the field walk. -/
def Package.withTemplates : Package → List Bytes → Package
  | .mk n p e d l ex _, ts => .mk n p e d l ex ts

/-- `Package::has_name`: the table converts to a Rust `String` at slot 1 or at
field `name`. -/
def has_name (tbl : LTable) : Bool :=
  (coerceToString (tbl.get (.int 1))).isSome ||
    (coerceToString (tbl.get (.str (S "name")))).isSome

/-- `Package::extract_name`: slot 1 xor field `name`, both or neither is an
error. -/
def extract_name (tbl : LTable) : Except NameErr Bytes :=
  match coerceToString (tbl.get (.int 1)), coerceToString (tbl.get (.str (S "name"))) with
  | some _, some _ => .error .bothProvided
  | some name, none => .ok name
  | none, some name => .ok name
  | none, none => .error .noName

/-- The `Value::Table` arm of `Package::parse_target_list`: every pair must be
(Integer key, String value), in order; any other pair aborts, citing it. -/
def parseTargetPairs : LTable → Except Fatal (List Bytes)
  | [] => .ok []
  | (.Integer _, .Str target) :: rest =>
    match luaStrToStr target with
    | .error e => .error e
    | .ok t =>
      match parseTargetPairs rest with
      | .error e => .error e
      | .ok ts => .ok (t :: ts)
  | (k, v) :: _ => .error (.invalidTargetElement k v)

/-- `Package::parse_target_list`: a single string becomes a singleton list, a
table is read pairwise. -/
def parse_target_list : ConfigValue → Except Fatal (List Bytes)
  | .Str target => match luaStrToStr target with
    | .error e => .error e
    | .ok t => .ok [t]
  | .Table target_list => parseTargetPairs target_list
  | v => .error (.targetsExpectedStringOrTable v)

/-- The body of the `.map` in the `Value::Table` arm of
`Package::extract_targets`: each sequence value must be a String. -/
def extractSeqTargets : List ConfigValue → Except Fatal (List Bytes)
  | [] => .ok []
  | .Str t :: rest =>
    match luaStrToStr t with
    | .error e => .error e
    | .ok b =>
      match extractSeqTargets rest with
      | .error e => .error e
      | .ok bs => .ok (b :: bs)
  | v :: _ => .error (.seqExpectedString v)

/-- `Package::extract_targets` (used for `excludes` and `templates`): a string
becomes a singleton; a table is read by sequence traversal only. -/
def extract_targets (value : ConfigValue) : Except Fatal (List Bytes) :=
  match value with
  | .Str _ =>
    match luaValueToStr value with
    | .error e => .error e
    | .ok b => .ok [b]
  | .Table targets => extractSeqTargets (seqValues targets)
  | v => .error (.expectedStringOrTable v)

/-- Reading `source` in the object form of a link entry. -/
def readSource (tbl : LTable) : Except Fatal Bytes :=
  match tbl.get (.str (S "source")) with
  | .Str s => luaStrToStr s
  | .Nil => .error .missingSource
  | v => .error (.sourceType v)

/-- Reading `targets` in the object form of a link entry. -/
def readTargets (tbl : LTable) : Except Fatal (List Bytes) :=
  match tbl.get (.str (S "targets")) with
  | .Nil => .error .missingTargets
  | v => parse_target_list v

/-- Reading `overwrite` in the object form of a link entry. -/
def readOverwrite (tbl : LTable) : Except Fatal Bool :=
  match tbl.get (.str (S "overwrite")) with
  | .Boolean v => .ok v
  | .Nil => .ok false
  | v => .error (.overwriteType v)

/-- Reading `backup` in the object form of a link entry. -/
def readBackup (tbl : LTable) : Except Fatal Bool :=
  match tbl.get (.str (S "backup")) with
  | .Boolean v => .ok v
  | .Nil => .ok false
  | v => .error (.backupType v)

/-- One iteration of the `.map` in `Package::extract_links`: object form for an
(Integer, Table) pair — fields read in source, targets, overwrite, backup
order — map shorthand for a String key, anything else aborts. -/
def parseLinkEntry : LPair → Except Fatal LinkObject
  | (.Integer _, .Table tbl) =>
    match readSource tbl with
    | .error e => .error e
    | .ok source =>
      match readTargets tbl with
      | .error e => .error e
      | .ok targets =>
        match readOverwrite tbl with
        | .error e => .error e
        | .ok overwrite =>
          match readBackup tbl with
          | .error e => .error e
          | .ok backup => .ok ⟨source, targets, overwrite, backup⟩
  | (.Str source, v) =>
    match luaStrToStr source with
    | .error e => .error e
    | .ok s =>
      match parse_target_list v with
      | .error e => .error e
      | .ok targets => .ok ⟨s, targets, false, false⟩
  | (key, value) => .error (.expectedLinkElement key value)

/-- `Package::extract_links`: one `LinkObject` per pair, in declaration
order. -/
def extract_links : LTable → Except Fatal (List LinkObject)
  | [] => .ok []
  | p :: rest =>
    match parseLinkEntry p with
    | .error e => .error e
    | .ok l =>
      match extract_links rest with
      | .error e => .error e
      | .ok ls => .ok (l :: ls)

/-- One iteration of the field-walk loop of `Package::from_table`: only String
keys are examined; `links`/`excludes`/`templates` update the package, `name` is
skipped, any other String key warns, non-String keys fall through silently. -/
def fieldStep (pkg : Package) (k value : ConfigValue) :
    Except Fatal (Package × Option Warn) :=
  match k with
  | .Str lua_key =>
    match luaStrToStr lua_key with
    | .error e => .error e
    | .ok key =>
      if key = S "links" then
        match value with
        | .Table t =>
          match extract_links t with
          | .error e => .error e
          | .ok links => .ok (pkg.withLinks links, none)
        | v => .error (.linksExpectedTable v)
      else if key = S "name" then .ok (pkg, none)
      else if key = S "excludes" then
        match extract_targets value with
        | .error e => .error e
        | .ok ex => .ok (pkg.withExcludes ex, none)
      else if key = S "templates" then
        match extract_targets value with
        | .error e => .error e
        | .ok ts => .ok (pkg.withTemplates ts, none)
      else .ok (pkg, some (.keyIgnored key))
  | _ => .ok (pkg, none)

/-- The field-walk loop of `Package::from_table`, over the table's pairs in
declaration order, streaming warnings in order. -/
def fieldWalk (pkg : Package) : LTable → Except Fatal (Package × List Warn)
  | [] => .ok (pkg, [])
  | (k, v) :: rest =>
    match fieldStep pkg k v with
    | .error e => .error e
    | .ok (pkg2, w) =>
      match fieldWalk pkg2 rest with
      | .error e => .error e
      | .ok (p, ws) => .ok (p, w.toList ++ ws)

/-- `Package::from_table`.  With an outer key: if the table also supplies a
name, one warning is emitted (the override notice, or the `extract_name` error
text when both inner sources are present) and the outer key wins.  Without an
outer key, a failing `extract_name` aborts. -/
def from_table (name : Option Bytes) (tbl : LTable) :
    Except Fatal (Package × List Warn) :=
  match name with
  | some name =>
    let ws :=
      if has_name tbl then
        match extract_name tbl with
        | .ok package_name => [Warn.keyOverridesName name package_name]
        | .error err => [Warn.nameErrWarn err]
      else []
    match fieldWalk (Package.new name) tbl with
    | .error e => .error e
    | .ok (p, ws2) => .ok (p, ws ++ ws2)
  | none =>
    match extract_name tbl with
    | .error err => .error (.nameErr err)
    | .ok n =>
      match fieldWalk (Package.new n) tbl with
      | .error e => .error e
      | .ok (p, ws2) => .ok (p, ws2)

/-- `Package::from_pair`: top-level entry classification. -/
def from_pair (key value : ConfigValue) : Except Fatal (Package × List Warn) :=
  match key, value with
  | .Integer _, .Str name =>
    match luaStrToStr name with
    | .error e => .error e
    | .ok n => .ok (Package.new n, [])
  | .Integer _, .Table tbl => from_table none tbl
  | .Str name, .Table tbl =>
    match luaStrToStr name with
    | .error e => .error e
    | .ok n => from_table (some n) tbl
  | key, value => .error (.unsupportedPackageFormat key value)

/-- The top-level loop of `main`: normalize every top-level pair in order. -/
def normalizeAll : LTable → Except Fatal (List Package × List Warn)
  | [] => .ok ([], [])
  | (k, v) :: rest =>
    match from_pair k v with
    | .error e => .error e
    | .ok (p, ws) =>
      match normalizeAll rest with
      | .error e => .error e
      | .ok (ps, ws2) => .ok (p :: ps, ws ++ ws2)

/-- A field-walk key that reaches the warn-and-ignore arm. -/
def ignoredKey (b : Bytes) : Bool :=
  !(decide (b = S "links") || decide (b = S "name") ||
    decide (b = S "excludes") || decide (b = S "templates"))

/-- The warnings a successful field walk emits: one `keyIgnored` per
String-keyed entry whose (valid) key is none of the four recognized ones. -/
def ignoredWarns (t : LTable) : List Warn :=
  t.filterMap fun p =>
    match p.1 with
    | .Str b => if utf8Valid b && ignoredKey b then some (.keyIgnored b) else none
    | _ => none

/-! ## Basic lemmas -/

theorem luaStrToStr_ok {b c : Bytes} (h : luaStrToStr b = .ok c) :
    b = c ∧ utf8Valid b = true := by
  unfold luaStrToStr at h
  split at h
  · simp at h; exact ⟨h, by assumption⟩
  · simp at h

theorem luaStrToStr_valid {b : Bytes} (h : utf8Valid b = true) :
    luaStrToStr b = .ok b := by
  simp [luaStrToStr, h]

theorem luaStrToStr_invalid {b : Bytes} (h : utf8Valid b = false) :
    luaStrToStr b = .error .invalidUtf8 := by
  simp [luaStrToStr, h]

theorem ignoredKey_spec {b : Bytes} (h : ignoredKey b = true) :
    b ≠ S "links" ∧ b ≠ S "name" ∧ b ≠ S "excludes" ∧ b ≠ S "templates" := by
  simp [ignoredKey] at h
  exact ⟨h.1.1.1, h.1.1.2, h.1.2, h.2⟩

theorem Package.withLinks_name (pkg : Package) (ls : List LinkObject) :
    (pkg.withLinks ls).name = pkg.name := by
  cases pkg; rfl

theorem Package.withExcludes_name (pkg : Package) (ex : List Bytes) :
    (pkg.withExcludes ex).name = pkg.name := by
  cases pkg; rfl

theorem Package.withTemplates_name (pkg : Package) (ts : List Bytes) :
    (pkg.withTemplates ts).name = pkg.name := by
  cases pkg; rfl

/-! ## fieldStep lemmas -/

theorem fieldStep_nonstr (pkg : Package) (k v : ConfigValue) (h : ∀ s, k ≠ .Str s) :
    fieldStep pkg k v = .ok (pkg, none) := by
  cases k with
  | Str b => exact absurd rfl (h b)
  | Nil => rfl
  | Boolean b => rfl
  | Integer i => rfl
  | Table t => rfl

theorem fieldStep_ignored (pkg : Package) (b : Bytes) (v : ConfigValue)
    (hv : utf8Valid b = true) (hk : ignoredKey b = true) :
    fieldStep pkg (.Str b) v = .ok (pkg, some (.keyIgnored b)) := by
  obtain ⟨h1, h2, h3, h4⟩ := ignoredKey_spec hk
  simp [fieldStep, luaStrToStr, hv, h1, h2, h3, h4]

theorem fieldStep_name (pkg : Package) (k v : ConfigValue) (pkg2 : Package)
    (w : Option Warn) (h : fieldStep pkg k v = .ok (pkg2, w)) :
    pkg2.name = pkg.name := by
  unfold fieldStep at h
  repeat' split at h
  all_goals first
    | exact Except.noConfusion h
    | (injection h with h'
       injection h' with ha hb
       simp [← ha, Package.withLinks_name, Package.withExcludes_name,
         Package.withTemplates_name])

theorem fieldStep_error_indep (pkg pkg' : Package) (k v : ConfigValue) (e : Fatal)
    (h : fieldStep pkg k v = .error e) : fieldStep pkg' k v = .error e := by
  unfold fieldStep at h ⊢
  repeat' split at h
  all_goals simp_all

theorem fieldStep_warn_str (pkg : Package) (b : Bytes) (v : ConfigValue)
    (pkg2 : Package) (w : Option Warn)
    (h : fieldStep pkg (.Str b) v = .ok (pkg2, w)) :
    w.toList = if utf8Valid b && ignoredKey b then [Warn.keyIgnored b] else [] := by
  simp only [fieldStep] at h
  split at h
  next e heq => exact Except.noConfusion h
  next key heq =>
    obtain ⟨hbk, hv⟩ := luaStrToStr_ok heq
    subst hbk
    by_cases h1 : b = S "links"
    · rw [if_pos h1] at h
      have hik : ignoredKey b = false := by rw [h1]; decide
      simp only [hv, hik, Bool.and_false]
      repeat' split at h
      all_goals first
        | exact Except.noConfusion h
        | (injection h with h'; injection h' with ha hb; simp [← hb])
    · rw [if_neg h1] at h
      by_cases h2 : b = S "name"
      · rw [if_pos h2] at h
        have hik : ignoredKey b = false := by rw [h2]; decide
        simp only [hv, hik, Bool.and_false]
        injection h with h'
        injection h' with ha hb
        simp [← hb]
      · rw [if_neg h2] at h
        by_cases h3 : b = S "excludes"
        · rw [if_pos h3] at h
          have hik : ignoredKey b = false := by rw [h3]; decide
          simp only [hv, hik, Bool.and_false]
          repeat' split at h
          all_goals first
            | exact Except.noConfusion h
            | (injection h with h'; injection h' with ha hb; simp [← hb])
        · rw [if_neg h3] at h
          by_cases h4 : b = S "templates"
          · rw [if_pos h4] at h
            have hik : ignoredKey b = false := by rw [h4]; decide
            simp only [hv, hik, Bool.and_false]
            repeat' split at h
            all_goals first
              | exact Except.noConfusion h
              | (injection h with h'; injection h' with ha hb; simp [← hb])
          · rw [if_neg h4] at h
            have hik : ignoredKey b = true := by
              simp [ignoredKey, h1, h2, h3, h4]
            simp only [hv, hik, Bool.and_self]
            injection h with h'
            injection h' with ha hb
            simp [← hb]

/-! ## fieldWalk lemmas -/

theorem fieldWalk_name : ∀ (t : LTable) (pkg p : Package) (ws : List Warn),
    fieldWalk pkg t = .ok (p, ws) → p.name = pkg.name := by
  intro t
  induction t with
  | nil =>
    intro pkg p ws h
    simp only [fieldWalk] at h
    injection h with h'
    injection h' with ha hb
    rw [← ha]
  | cons pr rest ih =>
    intro pkg p ws h
    obtain ⟨k, v⟩ := pr
    simp only [fieldWalk] at h
    cases hs : fieldStep pkg k v with
    | error e => rw [hs] at h; exact Except.noConfusion h
    | ok pw =>
      obtain ⟨pkg2, w⟩ := pw
      rw [hs] at h
      simp only [] at h
      cases hw : fieldWalk pkg2 rest with
      | error e => rw [hw] at h; exact Except.noConfusion h
      | ok pws =>
        obtain ⟨p', ws'⟩ := pws
        rw [hw] at h
        injection h with h'
        injection h' with ha hb
        rw [← ha, ih pkg2 p' ws' hw]
        exact fieldStep_name pkg k v pkg2 w hs

theorem fieldWalk_warns : ∀ (t : LTable) (pkg p : Package) (ws : List Warn),
    fieldWalk pkg t = .ok (p, ws) → ws = ignoredWarns t := by
  intro t
  induction t with
  | nil =>
    intro pkg p ws h
    simp only [fieldWalk] at h
    injection h with h'
    injection h' with ha hb
    rw [← hb]
    rfl
  | cons pr rest ih =>
    intro pkg p ws h
    obtain ⟨k, v⟩ := pr
    simp only [fieldWalk] at h
    cases hs : fieldStep pkg k v with
    | error e => rw [hs] at h; exact Except.noConfusion h
    | ok pw =>
      obtain ⟨pkg2, w⟩ := pw
      rw [hs] at h
      simp only [] at h
      cases hw : fieldWalk pkg2 rest with
      | error e => rw [hw] at h; exact Except.noConfusion h
      | ok pws =>
        obtain ⟨p', ws'⟩ := pws
        rw [hw] at h
        injection h with h'
        injection h' with ha hb
        rw [← hb, ih pkg2 p' ws' hw]
        cases k with
        | Str b =>
          rw [fieldStep_warn_str pkg b v pkg2 w hs]
          by_cases hif : (utf8Valid b && ignoredKey b) = true
          · have hif2 : utf8Valid b = true ∧ ignoredKey b = true := by simpa using hif
            obtain ⟨hv2, hik2⟩ := hif2
            simp [ignoredWarns, List.filterMap_cons, hif, hv2, hik2]
          · simp only [Bool.not_eq_true] at hif
            have hnot : ¬(utf8Valid b = true ∧ ignoredKey b = true) := by
              rw [← Bool.and_eq_true, hif]
              simp
            simp [ignoredWarns, List.filterMap_cons, hif, hnot]
        | Nil =>
          rw [fieldStep_nonstr pkg .Nil v (fun s hs2 => ConfigValue.noConfusion hs2)] at hs
          injection hs with h2
          injection h2 with h2a h2b
          rw [← h2b]
          simp [ignoredWarns]
        | Boolean c =>
          rw [fieldStep_nonstr pkg (.Boolean c) v (fun s hs2 => ConfigValue.noConfusion hs2)] at hs
          injection hs with h2
          injection h2 with h2a h2b
          rw [← h2b]
          simp [ignoredWarns]
        | Integer i =>
          rw [fieldStep_nonstr pkg (.Integer i) v (fun s hs2 => ConfigValue.noConfusion hs2)] at hs
          injection hs with h2
          injection h2 with h2a h2b
          rw [← h2b]
          simp [ignoredWarns]
        | Table t2 =>
          rw [fieldStep_nonstr pkg (.Table t2) v (fun s hs2 => ConfigValue.noConfusion hs2)] at hs
          injection hs with h2
          injection h2 with h2a h2b
          rw [← h2b]
          simp [ignoredWarns]

theorem fieldWalk_insert_ignored : ∀ (pre : LTable) (pkg : Package)
    (post : LTable) (b : Bytes) (v : ConfigValue),
    utf8Valid b = true → ignoredKey b = true →
    (fieldWalk pkg (pre ++ (.Str b, v) :: post)).map Prod.fst
      = (fieldWalk pkg (pre ++ post)).map Prod.fst := by
  intro pre
  induction pre with
  | nil =>
    intro pkg post b v hv hk
    simp only [List.nil_append, fieldWalk]
    rw [fieldStep_ignored pkg b v hv hk]
    simp only []
    cases hw : fieldWalk pkg post with
    | error e => simp [Except.map]
    | ok pws => obtain ⟨p, ws⟩ := pws; simp [Except.map]
  | cons pr pre ih =>
    intro pkg post b v hv hk
    obtain ⟨k0, v0⟩ := pr
    simp only [List.cons_append, fieldWalk]
    cases hs : fieldStep pkg k0 v0 with
    | error e => simp only []
    | ok pw =>
      obtain ⟨pkg2, w⟩ := pw
      simp only []
      have hmap := ih pkg2 post b v hv hk
      cases hwa : fieldWalk pkg2 (pre ++ (.Str b, v) :: post) with
      | error e =>
        cases hwb : fieldWalk pkg2 (pre ++ post) with
        | error e2 =>
          rw [hwa, hwb] at hmap
          simp only [Except.map] at hmap
          injection hmap with hmap'
          rw [hmap']
        | ok pws =>
          rw [hwa, hwb] at hmap
          simp [Except.map] at hmap
      | ok pws =>
        obtain ⟨p, ws⟩ := pws
        cases hwb : fieldWalk pkg2 (pre ++ post) with
        | error e2 =>
          rw [hwa, hwb] at hmap
          simp [Except.map] at hmap
        | ok pws2 =>
          obtain ⟨p2, ws2⟩ := pws2
          rw [hwa, hwb] at hmap
          simp only [Except.map] at hmap
          injection hmap with hmap'
          simp [Except.map, hmap']

theorem fieldWalk_insert_nonstr : ∀ (pre : LTable) (pkg : Package)
    (post : LTable) (k v : ConfigValue), (∀ s, k ≠ .Str s) →
    fieldWalk pkg (pre ++ (k, v) :: post) = fieldWalk pkg (pre ++ post) := by
  intro pre
  induction pre with
  | nil =>
    intro pkg post k v hns
    simp only [List.nil_append, fieldWalk]
    rw [fieldStep_nonstr pkg k v hns]
    simp only []
    cases hw : fieldWalk pkg post with
    | error e => rfl
    | ok pws => obtain ⟨p, ws⟩ := pws; simp
  | cons pr pre ih =>
    intro pkg post k v hns
    obtain ⟨k0, v0⟩ := pr
    simp only [List.cons_append, fieldWalk]
    cases hs : fieldStep pkg k0 v0 with
    | error e => simp only []
    | ok pw =>
      obtain ⟨pkg2, w⟩ := pw
      simp only [List.append_eq]
      rw [ih pkg2 post k v hns]

/-! ## Pointwise characterization of the list builders -/

theorem extract_links_ok : ∀ (entries : LTable) (res : List LinkObject),
    extract_links entries = .ok res →
    res.length = entries.length ∧
      ∀ j (hj : j < entries.length) (hr : j < res.length),
        parseLinkEntry (List.get entries ⟨j, hj⟩) = .ok (res.get ⟨j, hr⟩) := by
  intro entries
  induction entries with
  | nil =>
    intro res h
    simp only [extract_links] at h
    injection h with h'
    subst h'
    exact ⟨rfl, fun j hj hr => absurd hj (by simp)⟩
  | cons p rest ih =>
    intro res h
    simp only [extract_links] at h
    cases he : parseLinkEntry p with
    | error e => rw [he] at h; exact Except.noConfusion h
    | ok l =>
      rw [he] at h
      simp only [] at h
      cases hre : extract_links rest with
      | error e => rw [hre] at h; exact Except.noConfusion h
      | ok ls =>
        rw [hre] at h
        injection h with h'
        subst h'
        obtain ⟨hlen, hpt⟩ := ih ls hre
        refine ⟨by simp [hlen], ?_⟩
        intro j hj hr2
        cases j with
        | zero => exact he
        | succ j =>
          simp only [List.length_cons] at hj hr2
          exact hpt j (by omega) (by omega)

theorem parseTargetPairs_ok : ∀ (t : LTable) (res : List Bytes),
    parseTargetPairs t = .ok res →
    res.length = t.length ∧
      ∀ j (hj : j < t.length) (hr : j < res.length),
        ∃ i b, List.get t ⟨j, hj⟩ = (.Integer i, .Str b) ∧ utf8Valid b = true ∧
          res.get ⟨j, hr⟩ = b := by
  intro t
  induction t with
  | nil =>
    intro res h
    simp only [parseTargetPairs] at h
    injection h with h'
    subst h'
    exact ⟨rfl, fun j hj hr => absurd hj (by simp)⟩
  | cons pr rest ih =>
    intro res h
    obtain ⟨k, v⟩ := pr
    cases k <;> cases v <;> simp only [parseTargetPairs] at h <;>
      first
      | exact Except.noConfusion h
      | (rename_i i tb
         cases hl : luaStrToStr tb with
         | error e => rw [hl] at h; exact Except.noConfusion h
         | ok t0 =>
           obtain ⟨htb, hvb⟩ := luaStrToStr_ok hl
           subst htb
           rw [hl] at h
           simp only [] at h
           cases hpr : parseTargetPairs rest with
           | error e => rw [hpr] at h; exact Except.noConfusion h
           | ok ts =>
             rw [hpr] at h
             injection h with h'
             subst h'
             obtain ⟨hlen, hpt⟩ := ih ts hpr
             refine ⟨by simp [hlen], ?_⟩
             intro j hj hr2
             cases j with
             | zero => exact ⟨i, tb, rfl, hvb, rfl⟩
             | succ j =>
               simp only [List.length_cons] at hj hr2
               exact hpt j (by omega) (by omega))

theorem extractSeqTargets_ok : ∀ (vs : List ConfigValue) (res : List Bytes),
    extractSeqTargets vs = .ok res →
    res.length = vs.length ∧
      ∀ j (hj : j < vs.length) (hr : j < res.length),
        ∃ b, vs.get ⟨j, hj⟩ = .Str b ∧ utf8Valid b = true ∧
          res.get ⟨j, hr⟩ = b := by
  intro vs
  induction vs with
  | nil =>
    intro res h
    simp only [extractSeqTargets] at h
    injection h with h'
    subst h'
    exact ⟨rfl, fun j hj hr => absurd hj (by simp)⟩
  | cons v rest ih =>
    intro res h
    cases v <;> simp only [extractSeqTargets] at h <;>
      first
      | exact Except.noConfusion h
      | (rename_i tb
         cases hl : luaStrToStr tb with
         | error e => rw [hl] at h; exact Except.noConfusion h
         | ok t0 =>
           obtain ⟨htb, hvb⟩ := luaStrToStr_ok hl
           subst htb
           rw [hl] at h
           simp only [] at h
           cases hpr : extractSeqTargets rest with
           | error e => rw [hpr] at h; exact Except.noConfusion h
           | ok ts =>
             rw [hpr] at h
             injection h with h'
             subst h'
             obtain ⟨hlen, hpt⟩ := ih ts hpr
             refine ⟨by simp [hlen], ?_⟩
             intro j hj hr2
             cases j with
             | zero => exact ⟨tb, rfl, hvb, rfl⟩
             | succ j =>
               simp only [List.length_cons] at hj hr2
               exact hpt j (by omega) (by omega))

theorem normalizeAll_ok : ∀ (top : LTable) (res : List Package) (ws : List Warn),
    normalizeAll top = .ok (res, ws) →
    res.length = top.length ∧
      ∀ j (hj : j < top.length) (hr : j < res.length),
        ∃ wsj, from_pair (List.get top ⟨j, hj⟩).1 (List.get top ⟨j, hj⟩).2
          = .ok (res.get ⟨j, hr⟩, wsj) := by
  intro top
  induction top with
  | nil =>
    intro res ws h
    simp only [normalizeAll] at h
    injection h with h'
    injection h' with ha hb
    subst ha
    exact ⟨rfl, fun j hj hr => absurd hj (by simp)⟩
  | cons pr rest ih =>
    intro res ws h
    obtain ⟨k, v⟩ := pr
    simp only [normalizeAll] at h
    cases hf : from_pair k v with
    | error e => rw [hf] at h; exact Except.noConfusion h
    | ok pw =>
      obtain ⟨p, ws0⟩ := pw
      rw [hf] at h
      simp only [] at h
      cases hn : normalizeAll rest with
      | error e => rw [hn] at h; exact Except.noConfusion h
      | ok psws =>
        obtain ⟨ps, ws2⟩ := psws
        rw [hn] at h
        injection h with h'
        injection h' with ha hb
        subst ha
        obtain ⟨hlen, hpt⟩ := ih ps ws2 hn
        refine ⟨by simp [hlen], ?_⟩
        intro j hj hr2
        cases j with
        | zero => exact ⟨ws0, hf⟩
        | succ j =>
          simp only [List.length_cons] at hj hr2
          exact hpt j (by omega) (by omega)

/-! ## Error propagation (the pass aborts) -/

theorem extract_links_mem_error : ∀ (entries : LTable) (p : LPair) (e : Fatal),
    p ∈ entries → parseLinkEntry p = .error e →
    ∃ e2, extract_links entries = .error e2 := by
  intro entries
  induction entries with
  | nil => intro p e hm _; exact absurd hm (List.not_mem_nil p)
  | cons q rest ih =>
    intro p e hm hp
    rcases List.mem_cons.mp hm with heq | hm2
    · refine ⟨e, ?_⟩
      subst heq
      simp only [extract_links]
      rw [hp]
    · cases hq : parseLinkEntry q with
      | error e0 => exact ⟨e0, by simp only [extract_links]; rw [hq]⟩
      | ok l =>
        obtain ⟨e2, h2⟩ := ih p e hm2 hp
        exact ⟨e2, by simp only [extract_links]; rw [hq]; simp only []; rw [h2]⟩

theorem fieldWalk_mem_error : ∀ (t : LTable) (k v : ConfigValue) (e : Fatal)
    (pkg0 : Package), (k, v) ∈ t → fieldStep pkg0 k v = .error e →
    ∀ pkg, ∃ e2, fieldWalk pkg t = .error e2 := by
  intro t
  induction t with
  | nil => intro k v e pkg0 hm _ _; exact absurd hm (List.not_mem_nil _)
  | cons q rest ih =>
    intro k v e pkg0 hm hstep pkg
    obtain ⟨k0, v0⟩ := q
    cases hs : fieldStep pkg k0 v0 with
    | error e0 => exact ⟨e0, by simp only [fieldWalk]; rw [hs]⟩
    | ok pw =>
      obtain ⟨pkg2, w⟩ := pw
      rcases List.mem_cons.mp hm with heq | hm2
      · injection heq with hk hv
        subst hk
        subst hv
        rw [fieldStep_error_indep pkg0 pkg k v e hstep] at hs
        exact Except.noConfusion hs
      · obtain ⟨e2, h2⟩ := ih k v e pkg0 hm2 hstep pkg2
        exact ⟨e2, by simp only [fieldWalk]; rw [hs]; simp only []; rw [h2]⟩

theorem from_table_mem_error : ∀ (tbl : LTable) (k v : ConfigValue) (e : Fatal)
    (pkg0 : Package), (k, v) ∈ tbl → fieldStep pkg0 k v = .error e →
    ∀ nm, ∃ e2, from_table nm tbl = .error e2 := by
  intro tbl k v e pkg0 hm hstep nm
  cases nm with
  | some n =>
    obtain ⟨e2, h2⟩ := fieldWalk_mem_error tbl k v e pkg0 hm hstep (Package.new n)
    exact ⟨e2, by simp only [from_table]; rw [h2]⟩
  | none =>
    cases he : extract_name tbl with
    | error err => exact ⟨.nameErr err, by simp only [from_table]; rw [he]⟩
    | ok n =>
      obtain ⟨e2, h2⟩ := fieldWalk_mem_error tbl k v e pkg0 hm hstep (Package.new n)
      exact ⟨e2, by simp only [from_table]; rw [he]; simp only []; rw [h2]⟩

theorem from_pair_table_error : ∀ (tbl : LTable),
    (∀ nm, ∃ e2, from_table nm tbl = .error e2) →
    ∀ kk, ∃ e2, from_pair kk (.Table tbl) = .error e2 := by
  intro tbl h kk
  cases kk with
  | Nil => exact ⟨_, rfl⟩
  | Boolean c => exact ⟨_, rfl⟩
  | Table t2 => exact ⟨_, rfl⟩
  | Integer i =>
    obtain ⟨e2, h2⟩ := h none
    exact ⟨e2, h2⟩
  | Str nb =>
    cases hl : luaStrToStr nb with
    | error e0 => exact ⟨e0, by simp only [from_pair]; rw [hl]⟩
    | ok n =>
      obtain ⟨e2, h2⟩ := h (some n)
      exact ⟨e2, by simp only [from_pair]; rw [hl]; simp only []; exact h2⟩

theorem normalizeAll_mem_error : ∀ (top : LTable) (k v : ConfigValue) (e : Fatal),
    (k, v) ∈ top → from_pair k v = .error e →
    ∃ e2, normalizeAll top = .error e2 := by
  intro top
  induction top with
  | nil => intro k v e hm _; exact absurd hm (List.not_mem_nil _)
  | cons q rest ih =>
    intro k v e hm hp
    obtain ⟨k0, v0⟩ := q
    cases hq : from_pair k0 v0 with
    | error e0 => exact ⟨e0, by simp only [normalizeAll]; rw [hq]⟩
    | ok pw =>
      obtain ⟨p, ws0⟩ := pw
      rcases List.mem_cons.mp hm with heq | hm2
      · injection heq with hk hv
        subst hk
        subst hv
        rw [hp] at hq
        exact Except.noConfusion hq
      · obtain ⟨e2, h2⟩ := ih k v e hm2 hp
        exact ⟨e2, by simp only [normalizeAll]; rw [hq]; simp only []; rw [h2]⟩

/-! ## Claim theorems -/

/-- C1 (counterexample): the claim says every Table handed as the value of
`excludes` must consist of (Integer, String) pairs, map-style pairs being
Fatal.  But `extract_targets` reads the table by sequence traversal, so the
map-style pair `["k"] = "b"` is silently dropped: normalization succeeds and
the pair leaves no trace in the result. -/
theorem C1_counterexample :
    from_table (some (S "p"))
      [(.Str (S "excludes"),
        .Table [(.Integer 1, .Str (S "a")), (.Str (S "k"), .Str (S "b"))])] =
      .ok (.mk (S "p") none (.Enable true) [] [] [S "a"] [], []) := rfl

/-- C1 (amended): Table values reached through links — a link's `targets`
field or a map-shorthand value, both parsed by `parse_target_list` — must have
every pair (Integer key, String value), else the pass is Fatal; whereas
`excludes`/`templates` tables are read by `extract_targets` through positional
sequence traversal only, so their result depends only on the sequence part and
map-style pairs are silently dropped. -/
theorem C1_theorem :
    (∀ (t : LTable) (res : List Bytes), parseTargetPairs t = .ok res →
      ∀ p ∈ t, ∃ i b, p = (ConfigValue.Integer i, ConfigValue.Str b) ∧
        utf8Valid b = true)
    ∧ (∀ t₁ t₂ : LTable, seqValues t₁ = seqValues t₂ →
        extract_targets (.Table t₁) = extract_targets (.Table t₂)) := by
  constructor
  · intro t res h p hp
    obtain ⟨⟨j, hj⟩, hget⟩ := List.mem_iff_get.mp hp
    obtain ⟨hlen, hpt⟩ := parseTargetPairs_ok t res h
    obtain ⟨i, b, hpair, hvb, _⟩ := hpt j hj (by omega)
    rw [← hget]
    exact ⟨i, b, hpair, hvb⟩
  · intro t₁ t₂ hseq
    simp only [extract_targets, hseq]

/-- C1 (witness for the amended theorem): a concrete valid pair. -/
theorem C1_witness :
    ∃ i b, ((ConfigValue.Integer 1, ConfigValue.Str (S "a")) : LPair)
      = (ConfigValue.Integer i, ConfigValue.Str b) ∧ utf8Valid b = true :=
  C1_theorem.1 [(.Integer 1, .Str (S "a"))] [S "a"] rfl _ (by simp)

/-- C2 (counterexample): an object-form link entry whose `targets` value is an
empty Table is accepted without Fatal, and the constructed LinkObject has an
empty targets list — contradicting "targets contains at least one path". -/
theorem C2_counterexample :
    extract_links
      [(.Integer 1, .Table [(.Str (S "source"), .Str (S "s")),
        (.Str (S "targets"), .Table [])])] =
      .ok [⟨S "s", [], false, false⟩] := rfl

/-- C2 (amended): every constructed LinkObject's targets list is the
Target List Parser's output on a non-Nil value, with one entry per pair of a
Table value; hence it is empty exactly when the targets value is the empty
Table — a String value always yields a non-empty (singleton) list, but the
empty-Table case is accepted and produces empty targets. -/
theorem C2_theorem :
    (∀ (v : ConfigValue) (res : List Bytes), parse_target_list v = .ok res →
      (res = [] ↔ v = .Table []))
    ∧ (∀ (p : LPair) (l : LinkObject), parseLinkEntry p = .ok l →
        ∃ tv, tv ≠ ConfigValue.Nil ∧ parse_target_list tv = .ok l.targets) := by
  constructor
  · intro v res h
    cases v with
    | Nil => simp only [parse_target_list] at h; exact Except.noConfusion h
    | Boolean c => simp only [parse_target_list] at h; exact Except.noConfusion h
    | Integer j => simp only [parse_target_list] at h; exact Except.noConfusion h
    | Str tb =>
      simp only [parse_target_list] at h
      cases hl : luaStrToStr tb with
      | error e => rw [hl] at h; exact Except.noConfusion h
      | ok t0 =>
        rw [hl] at h
        injection h with h'
        subst h'
        simp
    | Table t =>
      simp only [parse_target_list] at h
      obtain ⟨hlen, _⟩ := parseTargetPairs_ok t res h
      constructor
      · intro hres
        subst hres
        simp only [List.length_nil] at hlen
        have ht : t = [] := List.length_eq_zero.mp hlen.symm
        rw [ht]
      · intro hv
        injection hv with ht
        subst ht
        simp only [parseTargetPairs] at h
        injection h with h'
        rw [← h']
  · intro p l h
    obtain ⟨k, v⟩ := p
    cases k with
    | Str sb =>
      simp only [parseLinkEntry] at h
      cases hl : luaStrToStr sb with
      | error e => rw [hl] at h; exact Except.noConfusion h
      | ok s =>
        rw [hl] at h
        simp only [] at h
        cases hp : parse_target_list v with
        | error e => rw [hp] at h; exact Except.noConfusion h
        | ok ts =>
          rw [hp] at h
          injection h with h'
          subst h'
          refine ⟨v, ?_, hp⟩
          intro hv
          subst hv
          simp only [parse_target_list] at hp
          exact Except.noConfusion hp
    | Integer i =>
      cases v with
      | Table tbl =>
        simp only [parseLinkEntry] at h
        cases hs : readSource tbl with
        | error e => rw [hs] at h; exact Except.noConfusion h
        | ok src =>
          rw [hs] at h
          simp only [] at h
          cases ht : readTargets tbl with
          | error e => rw [ht] at h; exact Except.noConfusion h
          | ok ts =>
            rw [ht] at h
            simp only [] at h
            cases ho : readOverwrite tbl with
            | error e => rw [ho] at h; exact Except.noConfusion h
            | ok ow =>
              rw [ho] at h
              simp only [] at h
              cases hb : readBackup tbl with
              | error e => rw [hb] at h; exact Except.noConfusion h
              | ok bk =>
                rw [hb] at h
                injection h with h'
                subst h'
                unfold readTargets at ht
                cases hg : LTable.get tbl (.str (S "targets")) with
                | Nil => rw [hg] at ht; exact Except.noConfusion ht
                | Boolean c =>
                  rw [hg] at ht
                  exact ⟨.Boolean c, fun hh => ConfigValue.noConfusion hh, ht⟩
                | Integer j =>
                  rw [hg] at ht
                  exact ⟨.Integer j, fun hh => ConfigValue.noConfusion hh, ht⟩
                | Str sb2 =>
                  rw [hg] at ht
                  exact ⟨.Str sb2, fun hh => ConfigValue.noConfusion hh, ht⟩
                | Table t2 =>
                  rw [hg] at ht
                  exact ⟨.Table t2, fun hh => ConfigValue.noConfusion hh, ht⟩
      | Nil => simp only [parseLinkEntry] at h; exact Except.noConfusion h
      | Boolean c => simp only [parseLinkEntry] at h; exact Except.noConfusion h
      | Integer j => simp only [parseLinkEntry] at h; exact Except.noConfusion h
      | Str sb => simp only [parseLinkEntry] at h; exact Except.noConfusion h
    | Nil =>
      cases v <;> (simp only [parseLinkEntry] at h; exact Except.noConfusion h)
    | Boolean c =>
      cases v <;> (simp only [parseLinkEntry] at h; exact Except.noConfusion h)
    | Table t2 =>
      cases v <;> (simp only [parseLinkEntry] at h; exact Except.noConfusion h)

/-- C2 (witness for the amended theorem): applied at a singleton string
targets value. -/
theorem C2_witness :
    ([S "x"] = ([] : List Bytes)) ↔ ConfigValue.Str (S "x") = .Table [] :=
  C2_theorem.1 (.Str (S "x")) [S "x"] rfl

/-- C5: with no outer string key, a package table supplying both a slot-1 name
and a `name` field is Fatal (the "provide 'name' OR positional" error), and a
table supplying neither is Fatal ("package must have a name"). -/
theorem C5_theorem (tbl : LTable) :
    ((coerceToString (tbl.get (.int 1))).isSome = true →
      (coerceToString (tbl.get (.str (S "name")))).isSome = true →
      from_table none tbl = .error (.nameErr .bothProvided))
    ∧ (coerceToString (tbl.get (.int 1)) = none →
      coerceToString (tbl.get (.str (S "name"))) = none →
      from_table none tbl = .error (.nameErr .noName)) := by
  constructor
  · intro h1 h2
    obtain ⟨a, ha⟩ := Option.isSome_iff_exists.mp h1
    obtain ⟨b2, hb2⟩ := Option.isSome_iff_exists.mp h2
    simp [from_table, extract_name, ha, hb2]
  · intro h1 h2
    simp [from_table, extract_name, h1, h2]

/-- C5 (witness): a table with both name sources, and the empty table with
neither. -/
theorem C5_witness :
    from_table none [(.Integer 1, .Str (S "a")), (.Str (S "name"), .Str (S "b"))]
      = .error (.nameErr .bothProvided)
    ∧ from_table none [] = .error (.nameErr .noName) :=
  ⟨(C5_theorem [(.Integer 1, .Str (S "a")), (.Str (S "name"), .Str (S "b"))]).1
      (by decide) (by decide),
   (C5_theorem []).2 rfl rfl⟩

/-- C6: the spec's Example 2 — the "alacritty" entry with an object-form link,
a map-shorthand link, and string-valued excludes/templates — normalizes to
exactly the stated Package (shorthand key used as source, overwrite and backup
false), with no warnings. -/
theorem C6_theorem :
    from_pair (.Str (S "alacritty")) (.Table
      [(.Str (S "links"), .Table
          [(.Integer 1, .Table
              [(.Str (S "source"), .Str (S "src")),
               (.Str (S "targets"), .Table
                  [(.Integer 1, .Str (S "tar")), (.Integer 2, .Str (S "hello"))])]),
           (.Str (S "key-src"), .Str (S "value-tar"))]),
       (.Str (S "excludes"), .Str (S "as_string")),
       (.Str (S "templates"), .Str (S "as_templates"))]) =
    .ok (.mk (S "alacritty") none (.Enable true) []
      [⟨S "src", [S "tar", S "hello"], false, false⟩,
       ⟨S "key-src", [S "value-tar"], false, false⟩]
      [S "as_string"] [S "as_templates"], []) := rfl

/-- C9: a top-level (Integer key, String name) entry yields a bare-name
Package with all defaults: no package_name, enabled true, and empty depends,
links, excludes and templates. -/
theorem C9_theorem (i : Int) (b : Bytes) (h : utf8Valid b = true) :
    from_pair (.Integer i) (.Str b) =
      .ok (.mk b none (.Enable true) [] [] [] [], []) := by
  simp [from_pair, luaStrToStr_valid h, Package.new]

/-- C9 (witness): the spec's Example 1, `{1: "fish"}`. -/
theorem C9_witness :
    from_pair (.Integer 1) (.Str (S "fish")) =
      .ok (.mk (S "fish") none (.Enable true) [] [] [] [], []) :=
  C9_theorem 1 (S "fish") (by decide)

/-- C3 (counterexample): the claim demands a Warning for every unrecognized
key "regardless of the key's type", but the field walk only examines String
keys: an entry with Integer key 2 (not a recognized field) is skipped silently
— normalization succeeds with zero warnings. -/
theorem C3_counterexample :
    from_table (some (S "p")) [(.Integer 2, .Str (S "tmux"))] =
      .ok (Package.new (S "p"), []) := rfl

/-- C3 (amended): during the field walk, every String-keyed entry whose
(UTF-8-valid) key is none of `links`/`name`/`excludes`/`templates` produces
exactly one "key is ignored" Warning, in order, and leaves the resulting
Package and the success/Fatal outcome unchanged; entries with non-String keys
are skipped silently — value discarded with no warning at all. -/
theorem C3_theorem :
    (∀ (pkg : Package) (t : LTable) (p : Package) (ws : List Warn),
      fieldWalk pkg t = .ok (p, ws) → ws = ignoredWarns t)
    ∧ (∀ (pkg : Package) (pre post : LTable) (b : Bytes) (v : ConfigValue),
        utf8Valid b = true → ignoredKey b = true →
        (fieldWalk pkg (pre ++ (.Str b, v) :: post)).map Prod.fst
          = (fieldWalk pkg (pre ++ post)).map Prod.fst
        ∧ ignoredWarns (pre ++ (.Str b, v) :: post)
          = ignoredWarns pre ++ Warn.keyIgnored b :: ignoredWarns post)
    ∧ (∀ (pkg : Package) (pre post : LTable) (k v : ConfigValue),
        (∀ s, k ≠ .Str s) →
        fieldWalk pkg (pre ++ (k, v) :: post) = fieldWalk pkg (pre ++ post)) := by
  refine ⟨?_, ?_, ?_⟩
  · intro pkg t p ws h
    exact fieldWalk_warns t pkg p ws h
  · intro pkg pre post b v hv hk
    refine ⟨fieldWalk_insert_ignored pre pkg post b v hv hk, ?_⟩
    simp [ignoredWarns, List.filterMap_append, List.filterMap_cons, hv, hk]
  · intro pkg pre post k v hns
    exact fieldWalk_insert_nonstr pre pkg post k v hns

/-- C3 (witness for the amended theorem): one ignorable key `custom`. -/
theorem C3_witness :
    (fieldWalk (Package.new (S "p"))
        [((ConfigValue.Str (S "custom") : ConfigValue), ConfigValue.Nil)]).map Prod.fst
      = (fieldWalk (Package.new (S "p")) []).map Prod.fst
    ∧ ignoredWarns [((ConfigValue.Str (S "custom") : ConfigValue), ConfigValue.Nil)]
      = ignoredWarns [] ++ Warn.keyIgnored (S "custom") :: ignoredWarns [] :=
  C3_theorem.2.1 (Package.new (S "p")) [] [] (S "custom") .Nil (by decide) (by decide)

/-- C4 (counterexample): the claim says normalization of a table under an
outer key that also supplies an inner name always succeeds; but a Fatal can
still arise from other fields — here `links` bound to an Integer — so the
entry aborts despite the outer key. -/
theorem C4_counterexample :
    from_table (some (S "a"))
      [(.Str (S "name"), .Str (S "x")), (.Str (S "links"), .Integer 5)] =
      .error (.linksExpectedTable (.Integer 5)) := rfl

/-- C4 (amended): for a package table under an outer string key that also
supplies an inner name, name resolution never aborts: exactly one Warning is
prepended (the override notice, or the ambiguity text when both inner sources
are present), the entry succeeds exactly when the field walk does, and on
success the Package name is the outer key. -/
theorem C4_theorem (outer : Bytes) (tbl : LTable) (h : has_name tbl = true) :
    (∃ w : Warn, from_table (some outer) tbl
        = (fieldWalk (Package.new outer) tbl).map (fun pw => (pw.1, w :: pw.2)))
    ∧ ∀ p ws, from_table (some outer) tbl = .ok (p, ws) → p.name = outer := by
  constructor
  · cases he : extract_name tbl with
    | ok pn =>
      refine ⟨.keyOverridesName outer pn, ?_⟩
      simp only [from_table, h, if_true, he]
      cases hw : fieldWalk (Package.new outer) tbl with
      | error e => simp [hw, Except.map]
      | ok pws => obtain ⟨p, ws⟩ := pws; simp [hw, Except.map]
    | error err =>
      refine ⟨.nameErrWarn err, ?_⟩
      simp only [from_table, h, if_true, he]
      cases hw : fieldWalk (Package.new outer) tbl with
      | error e => simp [hw, Except.map]
      | ok pws => obtain ⟨p, ws⟩ := pws; simp [hw, Except.map]
  · intro p ws hok
    simp only [from_table] at hok
    cases hw : fieldWalk (Package.new outer) tbl with
    | error e => rw [hw] at hok; exact Except.noConfusion hok
    | ok pws =>
      obtain ⟨p', ws'⟩ := pws
      rw [hw] at hok
      simp only [] at hok
      injection hok with h2
      injection h2 with ha hb
      rw [← ha]
      exact fieldWalk_name tbl (Package.new outer) p' ws' hw

/-- C4 (witness for the amended theorem): outer key `a` over a table whose
`name` field says `x`. -/
theorem C4_witness :
    (∃ w : Warn, from_table (some (S "a")) [(.Str (S "name"), .Str (S "x"))]
        = (fieldWalk (Package.new (S "a")) [(.Str (S "name"), .Str (S "x"))]).map
            (fun pw => (pw.1, w :: pw.2)))
    ∧ ∀ p ws, from_table (some (S "a")) [(.Str (S "name"), .Str (S "x"))]
        = .ok (p, ws) → p.name = S "a" :=
  C4_theorem (S "a") [(.Str (S "name"), .Str (S "x"))] (by decide)

/-- C10 (counterexample): an inner positional name whose bytes are invalid
UTF-8 is read through `tbl.get::<String>(1).ok()`, which swallows the
conversion error: under an outer key the entry normalizes successfully — no
"invalid UTF-8" Fatal is raised for this string field. -/
theorem C10_counterexample :
    from_pair (.Str (S "pkg")) (.Table [(.Integer 1, .Str [255])]) =
      .ok (Package.new (S "pkg"), []) := rfl

/-- C10 (amended): invalid UTF-8 aborts the pass with the "invalid UTF-8"
Fatal for every string read through `lua_str_to_str`: bare top-level names,
outer string keys, map-shorthand sources, object-form `source` fields,
`targets` elements, sequence (excludes/templates) elements, and field-walk
keys; but an inner slot-1/`name` string with invalid bytes is treated as
absent instead — with no other name source, extraction fails with the
"package must have a name" error, not the UTF-8 one. -/
theorem C10_theorem (b : Bytes) (h : utf8Valid b = false) :
    (∀ i : Int, from_pair (.Integer i) (.Str b) = .error .invalidUtf8)
    ∧ (∀ t : LTable, from_pair (.Str b) (.Table t) = .error .invalidUtf8)
    ∧ (∀ v, parseLinkEntry (.Str b, v) = .error .invalidUtf8)
    ∧ (∀ (i : Int) (t : LTable), LTable.get t (.str (S "source")) = .Str b →
        parseLinkEntry (.Integer i, .Table t) = .error .invalidUtf8)
    ∧ (∀ (i : Int) (rest : LTable),
        parseTargetPairs ((.Integer i, .Str b) :: rest) = .error .invalidUtf8)
    ∧ (∀ rest, extractSeqTargets (.Str b :: rest) = .error .invalidUtf8)
    ∧ (∀ (pkg : Package) (v : ConfigValue),
        fieldStep pkg (.Str b) v = .error .invalidUtf8)
    ∧ (∀ t : LTable, LTable.get t (.int 1) = .Str b →
        LTable.get t (.str (S "name")) = .Nil →
        from_table none t = .error (.nameErr .noName)) := by
  refine ⟨?_, ?_, ?_, ?_, ?_, ?_, ?_, ?_⟩
  · intro i
    simp [from_pair, luaStrToStr_invalid h]
  · intro t
    simp [from_pair, luaStrToStr_invalid h]
  · intro v
    simp [parseLinkEntry, luaStrToStr_invalid h]
  · intro i t hg
    simp [parseLinkEntry, readSource, hg, luaStrToStr_invalid h]
  · intro i rest
    simp [parseTargetPairs, luaStrToStr_invalid h]
  · intro rest
    simp [extractSeqTargets, luaStrToStr_invalid h]
  · intro pkg v
    simp [fieldStep, luaStrToStr_invalid h]
  · intro t h1 h2
    simp [from_table, extract_name, coerceToString, h1, h2, h]

/-- C10 (witness for the amended theorem): the single byte 0xFF. -/
theorem C10_witness :
    from_pair (.Integer 1) (.Str [255]) = .error .invalidUtf8 :=
  (C10_theorem [255] (by decide)).1 1

/-- Unfolding of the object-form link entry as the sequence of field reads. -/
theorem parseLinkEntry_obj (i : Int) (t : LTable) :
    parseLinkEntry (.Integer i, .Table t) =
      match readSource t with
      | .error e => .error e
      | .ok source =>
        match readTargets t with
        | .error e => .error e
        | .ok targets =>
          match readOverwrite t with
          | .error e => .error e
          | .ok overwrite =>
            match readBackup t with
            | .error e => .error e
            | .ok backup => .ok ⟨source, targets, overwrite, backup⟩ := rfl

theorem readTargets_nil (t : LTable)
    (h : LTable.get t (.str (S "targets")) = .Nil) :
    readTargets t = .error .missingTargets := by
  simp [readTargets, h]

theorem readOverwrite_bad (t : LTable) (v : ConfigValue)
    (hg : LTable.get t (.str (S "overwrite")) = v) (hnil : v ≠ .Nil)
    (hnb : ∀ c, v ≠ .Boolean c) :
    readOverwrite t = .error (.overwriteType v) := by
  cases v with
  | Nil => exact absurd rfl hnil
  | Boolean c => exact absurd rfl (hnb c)
  | Integer j => simp [readOverwrite, hg]
  | Str sb => simp [readOverwrite, hg]
  | Table t2 => simp [readOverwrite, hg]

theorem readBackup_bad (t : LTable) (v : ConfigValue)
    (hg : LTable.get t (.str (S "backup")) = v) (hnil : v ≠ .Nil)
    (hnb : ∀ c, v ≠ .Boolean c) :
    readBackup t = .error (.backupType v) := by
  cases v with
  | Nil => exact absurd rfl hnil
  | Boolean c => exact absurd rfl (hnb c)
  | Integer j => simp [readBackup, hg]
  | Str sb => simp [readBackup, hg]
  | Table t2 => simp [readBackup, hg]

/-- C7: object-form link entries — missing `source` is Fatal with the
"must contain source" error; a present non-String `source` is a Fatal type
error; missing `targets` (with a valid source) is Fatal with the missing-field
error, and in general Fatal whatever the source holds; `overwrite`/`backup`
default to false when absent and make the entry Fatal when present with a
non-Bool value; and a links table containing an entry with missing `targets`
aborts the whole pass — `normalizeAll` of any top-level tree reaching it
returns an error, producing no Package sequence. -/
theorem C7_theorem (i : Int) (t : LTable) :
    (LTable.get t (.str (S "source")) = .Nil →
      parseLinkEntry (.Integer i, .Table t) = .error .missingSource)
    ∧ (∀ v, LTable.get t (.str (S "source")) = v → v ≠ .Nil →
        (∀ b, v ≠ .Str b) →
        parseLinkEntry (.Integer i, .Table t) = .error (.sourceType v))
    ∧ (∀ s, LTable.get t (.str (S "source")) = .Str s → utf8Valid s = true →
        LTable.get t (.str (S "targets")) = .Nil →
        parseLinkEntry (.Integer i, .Table t) = .error .missingTargets)
    ∧ (LTable.get t (.str (S "targets")) = .Nil →
        ∃ e, parseLinkEntry (.Integer i, .Table t) = .error e)
    ∧ (∀ l, parseLinkEntry (.Integer i, .Table t) = .ok l →
        (LTable.get t (.str (S "overwrite")) = .Nil → l.overwrite = false)
        ∧ (LTable.get t (.str (S "backup")) = .Nil → l.backup = false))
    ∧ (∀ v, LTable.get t (.str (S "overwrite")) = v → v ≠ .Nil →
        (∀ c, v ≠ .Boolean c) →
        ∃ e, parseLinkEntry (.Integer i, .Table t) = .error e)
    ∧ (∀ v, LTable.get t (.str (S "backup")) = v → v ≠ .Nil →
        (∀ c, v ≠ .Boolean c) →
        ∃ e, parseLinkEntry (.Integer i, .Table t) = .error e)
    ∧ (∀ (linksT tbl2 top : LTable) (kk : ConfigValue),
        LTable.get t (.str (S "targets")) = .Nil →
        ((ConfigValue.Integer i, ConfigValue.Table t) : LPair) ∈ linksT →
        ((ConfigValue.Str (S "links"), ConfigValue.Table linksT) : LPair) ∈ tbl2 →
        ((kk, ConfigValue.Table tbl2) : LPair) ∈ top →
        ∃ e, normalizeAll top = .error e) := by
  refine ⟨?_, ?_, ?_, ?_, ?_, ?_, ?_, ?_⟩
  · intro hg
    rw [parseLinkEntry_obj]
    have hrs : readSource t = .error .missingSource := by simp [readSource, hg]
    rw [hrs]
  · intro v hg hnil hnb
    rw [parseLinkEntry_obj]
    have hrs : readSource t = .error (.sourceType v) := by
      cases v with
      | Nil => exact absurd rfl hnil
      | Str sb => exact absurd rfl (hnb sb)
      | Boolean c => simp [readSource, hg]
      | Integer j => simp [readSource, hg]
      | Table t2 => simp [readSource, hg]
    rw [hrs]
  · intro s hg hvs hgt
    rw [parseLinkEntry_obj]
    have hrs : readSource t = .ok s := by
      simp [readSource, hg, luaStrToStr_valid hvs]
    rw [hrs, readTargets_nil t hgt]
  · intro hgt
    rw [parseLinkEntry_obj]
    cases hs : readSource t with
    | error e0 => exact ⟨e0, rfl⟩
    | ok s =>
      rw [readTargets_nil t hgt]
      exact ⟨.missingTargets, rfl⟩
  · intro l hok
    rw [parseLinkEntry_obj] at hok
    cases hs : readSource t with
    | error e => rw [hs] at hok; exact Except.noConfusion hok
    | ok s =>
      rw [hs] at hok
      simp only [] at hok
      cases ht : readTargets t with
      | error e => rw [ht] at hok; exact Except.noConfusion hok
      | ok ts =>
        rw [ht] at hok
        simp only [] at hok
        cases ho : readOverwrite t with
        | error e => rw [ho] at hok; exact Except.noConfusion hok
        | ok ow =>
          rw [ho] at hok
          simp only [] at hok
          cases hb : readBackup t with
          | error e => rw [hb] at hok; exact Except.noConfusion hok
          | ok bk =>
            rw [hb] at hok
            injection hok with h'
            subst h'
            constructor
            · intro hnil
              have h2 : readOverwrite t = .ok false := by
                simp [readOverwrite, hnil]
              rw [h2] at ho
              injection ho with ho'
              exact ho'.symm
            · intro hnil
              have h2 : readBackup t = .ok false := by
                simp [readBackup, hnil]
              rw [h2] at hb
              injection hb with hb'
              exact hb'.symm
  · intro v hg hnil hnb
    rw [parseLinkEntry_obj]
    cases hs : readSource t with
    | error e0 => exact ⟨e0, rfl⟩
    | ok s =>
      cases ht : readTargets t with
      | error e0 => exact ⟨e0, rfl⟩
      | ok ts =>
        rw [readOverwrite_bad t v hg hnil hnb]
        exact ⟨.overwriteType v, rfl⟩
  · intro v hg hnil hnb
    rw [parseLinkEntry_obj]
    cases hs : readSource t with
    | error e0 => exact ⟨e0, rfl⟩
    | ok s =>
      cases ht : readTargets t with
      | error e0 => exact ⟨e0, rfl⟩
      | ok ts =>
        cases ho : readOverwrite t with
        | error e0 => exact ⟨e0, rfl⟩
        | ok ow =>
          rw [readBackup_bad t v hg hnil hnb]
          exact ⟨.backupType v, rfl⟩
  · intro linksT tbl2 top kk hgt hmem1 hmem2 hmem3
    have hpe : ∃ e0, parseLinkEntry (.Integer i, .Table t) = .error e0 := by
      rw [parseLinkEntry_obj]
      cases hs : readSource t with
      | error e0 => exact ⟨e0, rfl⟩
      | ok s =>
        rw [readTargets_nil t hgt]
        exact ⟨.missingTargets, rfl⟩
    obtain ⟨e0, he0⟩ := hpe
    obtain ⟨e1, he1⟩ :=
      extract_links_mem_error linksT (.Integer i, .Table t) e0 hmem1 he0
    have hvl : utf8Valid (S "links") = true := by decide
    have hstep : fieldStep (Package.new []) (.Str (S "links")) (.Table linksT)
        = .error e1 := by
      simp [fieldStep, luaStrToStr_valid hvl, he1]
    have hft := from_table_mem_error tbl2 (.Str (S "links")) (.Table linksT) e1
      (Package.new []) hmem2 hstep
    obtain ⟨e3, he3⟩ := from_pair_table_error tbl2 hft kk
    exact normalizeAll_mem_error top kk (.Table tbl2) e3 hmem3 he3

/-- C7 (witness): a link entry with a valid `source` and no `targets` is
Fatal with the missing-field error. -/
theorem C7_witness :
    parseLinkEntry (.Integer 1, .Table [(.Str (S "source"), .Str (S "src"))]) =
      .error .missingTargets :=
  (C7_theorem 1 [(.Str (S "source"), .Str (S "src"))]).2.2.1 (S "src") rfl
    (by decide) rfl

/-- C8: order preservation without merging or deduplication — a links table
that normalizes successfully yields exactly one LinkObject per entry, the j-th
LinkObject coming from the j-th entry (so shared sources are kept as distinct
links); the same pointwise correspondence holds for link-targets tables, for
the sequence part of excludes/templates tables, and for the top-level package
sequence. -/
theorem C8_theorem :
    (∀ (entries : LTable) (res : List LinkObject),
      extract_links entries = .ok res →
      res.length = entries.length ∧
        ∀ j (hj : j < entries.length) (hr : j < res.length),
          parseLinkEntry (List.get entries ⟨j, hj⟩) = .ok (res.get ⟨j, hr⟩))
    ∧ (∀ (t : LTable) (res : List Bytes),
        parseTargetPairs t = .ok res →
        res.length = t.length ∧
          ∀ j (hj : j < t.length) (hr : j < res.length),
            ∃ i b, List.get t ⟨j, hj⟩ = (.Integer i, .Str b) ∧
              utf8Valid b = true ∧ res.get ⟨j, hr⟩ = b)
    ∧ (∀ (vs : List ConfigValue) (res : List Bytes),
        extractSeqTargets vs = .ok res →
        res.length = vs.length ∧
          ∀ j (hj : j < vs.length) (hr : j < res.length),
            ∃ b, vs.get ⟨j, hj⟩ = .Str b ∧ utf8Valid b = true ∧
              res.get ⟨j, hr⟩ = b)
    ∧ (∀ (top : LTable) (res : List Package) (ws : List Warn),
        normalizeAll top = .ok (res, ws) →
        res.length = top.length ∧
          ∀ j (hj : j < top.length) (hr : j < res.length),
            ∃ wsj, from_pair (List.get top ⟨j, hj⟩).1 (List.get top ⟨j, hj⟩).2
              = .ok (res.get ⟨j, hr⟩, wsj)) :=
  ⟨extract_links_ok, parseTargetPairs_ok, extractSeqTargets_ok, normalizeAll_ok⟩

/-- C8 (witness): two links sharing the source `dup` stay two links. -/
theorem C8_witness :
    ∃ res : List LinkObject,
      extract_links [(.Str (S "dup"), .Str (S "t1")),
        (.Str (S "dup"), .Str (S "t2"))] = .ok res ∧ res.length = 2 := by
  refine ⟨[⟨S "dup", [S "t1"], false, false⟩,
    ⟨S "dup", [S "t2"], false, false⟩], rfl, ?_⟩
  have hlen := (C8_theorem.1
    [(.Str (S "dup"), .Str (S "t1")), (.Str (S "dup"), .Str (S "t2"))]
    [⟨S "dup", [S "t1"], false, false⟩, ⟨S "dup", [S "t2"], false, false⟩]
    rfl).1
  exact hlen
